import Mathlib

/-!
Verification of the SlimCode validation/minification core.

The source implements, per declared file type (`html`, `css`, `json`, `js`, `jsx`):
`validateContent` (a per-kind plausibility check), `mockMinify` (a pipeline of
global regex substitutions, or `JSON.stringify(JSON.parse _)` for JSON),
`handleMinify` (assembling a result record with UTF-8 byte sizes and a rounded
reduction percentage) and a 1 MiB size gate in the file-upload handler.

Texts are modelled as `List Char`.  Each `String.prototype.replace` call with a
global regex is embedded as a fuel-driven left-to-right scanner that mirrors the
regex engine's leftmost-match behaviour; fuel is the input length, which every
step strictly consumes, so the fuel-0 branch (returning the rest unchanged) is
never reached from the wrappers.  `JSON.parse` / `JSON.stringify` are embedded
exactly for strings, arrays, objects and literals; a numeric literal (validated
against the strict JSON number grammar) is converted, as the host converts it,
to an IEEE-754 binary64 double — modelled exactly as a sign, a mantissa and a
binary exponent, rounded to nearest with ties to even, saturating to an
infinity on overflow — and `JSON.stringify` re-serializes a finite double by
the shortest-round-trip decimal of `Number::toString` (ECMA-262 6.1.6.1.20)
and writes a non-finite double as `null`.  Strings range over Unicode scalar
values (Lean's `Char`); a lone-surrogate `\uXXXX` escape, which the host turns
into an unpaired UTF-16 code unit, has no scalar-value counterpart and is
outside the model's domain.
-/

/-! ## Character classes -/

/-- The character class of JavaScript's regex `\s` (and of `String.prototype.trim`):
space, tab, line feed, vertical tab, form feed, carriage return, NBSP, and the
Unicode space separators / line terminators / BOM. -/
def wsChar (c : Char) : Bool :=
  (9 ≤ c.toNat && c.toNat ≤ 13) || c == ' ' ||
  c == '\u00A0' || c == '\u1680' || (0x2000 ≤ c.toNat && c.toNat ≤ 0x200a) ||
  c == '\u2028' || c == '\u2029' || c == '\u202F' || c == '\u205F' || c == '\u3000' ||
  c == '\uFEFF'

/-- JavaScript line terminators: what `.` does not match and what `$` (with `m`) precedes. -/
def lineTermChar (c : Char) : Bool :=
  c == '\n' || c == '\r' || c == '\u2028' || c == '\u2029'

/-- UTF-8 byte length of a text, the measure `new Blob([s]).size` uses. -/
def utf8Len (cs : List Char) : Nat := (cs.map Char.utf8Size).sum

/-- `s.trim()`: strip leading and trailing whitespace. -/
def jsTrim (cs : List Char) : List Char :=
  ((cs.dropWhile wsChar).reverse.dropWhile wsChar).reverse

/-- Whether `pat` occurs as a contiguous substring of `cs` (a bare regex-literal
`.test` for a fixed word). -/
def containsSub (pat cs : List Char) : Bool := cs.tails.any fun t => pat.isPrefixOf t

/-! ## JSON values

`JSON.parse` produces nested arrays/objects; object members keep the position
of their first occurrence (a duplicate key overwrites the value in place).
Numbers are the host's: IEEE-754 binary64 doubles, modelled exactly. -/

/-- A double as `JSON.parse` can produce one: `finite neg mant e2` is the value
`(-1)^neg * mant * 2^e2` with `mant < 2^53` (canonically `2^52 ≤ mant` unless
`e2 = -1074` or `mant = 0`, and `e2 = 0` when `mant = 0`); overflow during the
literal-to-double conversion yields an infinity.  `NaN` is unreachable from
`JSON.parse`. -/
inductive JNum where
  | finite (neg : Bool) (mant : Nat) (e2 : Int)
  | posInf
  | negInf
deriving DecidableEq

mutual
inductive Json where
  | null : Json
  | bool : Bool → Json
  | num : JNum → Json
  | str : List Char → Json
  | arr : JList → Json
  | obj : JObj → Json
inductive JList where
  | nil : JList
  | cons : Json → JList → JList
inductive JObj where
  | nil : JObj
  | cons : List Char → Json → JObj → JObj
end

/-- Value of a key in an object (first match). -/
def objLookup (k : List Char) : JObj → Option Json
  | .nil => none
  | .cons k2 v2 r => if k = k2 then some v2 else objLookup k r

/-- Remove every member with the given key. -/
def objErase (k : List Char) : JObj → JObj
  | .nil => .nil
  | .cons k2 v2 r => if k = k2 then objErase k r else .cons k2 v2 (objErase k r)

/-- Prepend the member `k := v` to the object built from the members after it.
`JSON.parse` defines properties left to right, so a later duplicate of `k`
keeps this first position but contributes its own (last) value — exactly what
repeated property definition on a JS object does. -/
def objDefine (k : List Char) (v : Json) (o : JObj) : JObj :=
  match objLookup k o with
  | some w => .cons k w (objErase k o)
  | none => .cons k v o

/-! ## JSON lexical helpers -/

/-- JSON insignificant whitespace (RFC 8259: space, tab, LF, CR). -/
def jsonWs (c : Char) : Bool :=
  decide (c = ' ' ∨ c = '\t' ∨ c = '\n' ∨ c = '\r')

/-- Skip insignificant whitespace. -/
def skipWs (cs : List Char) : List Char := cs.dropWhile jsonWs

/-- Value of one hexadecimal digit. -/
def hexVal? (c : Char) : Option Nat :=
  let n := c.toNat
  if 48 ≤ n ∧ n ≤ 57 then some (n - 48)
  else if 97 ≤ n ∧ n ≤ 102 then some (n - 87)
  else if 65 ≤ n ∧ n ≤ 70 then some (n - 55)
  else none

/-- Value of a four-hex-digit escape body. -/
def hex4? (a b c d : Char) : Option Nat :=
  match hexVal? a, hexVal? b, hexVal? c, hexVal? d with
  | some x, some y, some z, some w => some (4096 * x + 256 * y + 16 * z + w)
  | _, _, _, _ => none

/-- The single-character string escapes of JSON. -/
def escMap? : Char → Option Char
  | '"' => some '"'
  | '\\' => some '\\'
  | '/' => some '/'
  | 'b' => some '\x08'
  | 'f' => some '\x0c'
  | 'n' => some '\n'
  | 'r' => some '\r'
  | 't' => some '\t'
  | _ => none

/-- Decimal digit. -/
def digitChar (c : Char) : Bool := '0' ≤ c && c ≤ '9'

/-- Characters that can occur in a JSON number lexeme. -/
def numLexChar (c : Char) : Bool :=
  digitChar c || c == '-' || c == '+' || c == '.' || c == 'e' || c == 'E'

/-- One or more digits, ending the lexeme. -/
def numDigits1 (r : List Char) : Bool := !r.isEmpty && r.all digitChar

/-- Exponent part after `e`/`E`: optional sign, then digits. -/
def numExpDigits : List Char → Bool
  | [] => false
  | c :: r => if c == '+' || c == '-' then numDigits1 r else numDigits1 (c :: r)

/-- Optional exponent part, ending the lexeme. -/
def numExpOk : List Char → Bool
  | [] => true
  | c :: r => if c == 'e' || c == 'E' then numExpDigits r else false

/-- Optional fraction part, then optional exponent. -/
def numFracExpOk : List Char → Bool
  | [] => true
  | c :: r =>
    if c == '.' then !(r.takeWhile digitChar).isEmpty && numExpOk (r.dropWhile digitChar)
    else numExpOk (c :: r)

/-- Integer part (no leading zero except `0` itself), then fraction/exponent. -/
def numIntOk : List Char → Bool
  | [] => false
  | c :: r =>
    if c == '0' then numFracExpOk r
    else digitChar c && numFracExpOk (r.dropWhile digitChar)

/-- Whether a lexeme is a number of the strict JSON grammar. -/
def numCheck : List Char → Bool
  | [] => false
  | c :: r => if c == '-' then numIntOk r else numIntOk (c :: r)

/-- Maximal-munch number token: the run of number-lexeme characters, validated
against the grammar. -/
def parseNumberTok (cs : List Char) : Option (List Char × List Char) :=
  if numCheck (cs.takeWhile numLexChar) then
    some (cs.takeWhile numLexChar, cs.dropWhile numLexChar)
  else none

/-! ## Numeric literal to double

`JSON.parse` converts each numeric literal through the host Number type:
the exact decimal value of the literal is rounded to the nearest binary64
double (ties to even); a value at or beyond the overflow midpoint
`2^1024 - 2^970` becomes an infinity.  Positive rationals are handled as exact
numerator/denominator pairs of naturals. -/

/-- Value of a digit string, most significant first. -/
def natOfDigits (ds : List Char) : Nat :=
  ds.foldl (fun acc c => 10 * acc + (c.toNat - 48)) 0

/-- Decompose a grammar-checked number lexeme into sign, digit value and
decimal exponent: the mathematical value is `(-1)^neg * digits * 10^exp`. -/
def decodeDec (t : List Char) : Bool × Nat × Int :=
  let p1 : Bool × List Char :=
    match t with
    | '-' :: r => (true, r)
    | _ => (false, t)
  let intD := p1.2.takeWhile digitChar
  let r1 := p1.2.dropWhile digitChar
  let p2 : List Char × List Char :=
    match r1 with
    | '.' :: r => (r.takeWhile digitChar, r.dropWhile digitChar)
    | _ => ([], r1)
  let e10 : Int :=
    match p2.2 with
    | 'e' :: '-' :: ds => -(natOfDigits ds : Int)
    | 'E' :: '-' :: ds => -(natOfDigits ds : Int)
    | 'e' :: '+' :: ds => (natOfDigits ds : Int)
    | 'E' :: '+' :: ds => (natOfDigits ds : Int)
    | 'e' :: ds => (natOfDigits ds : Int)
    | 'E' :: ds => (natOfDigits ds : Int)
    | _ => 0
  (p1.1, natOfDigits (intD ++ p2.1), e10 - p2.1.length)

/-- How many times `t` can be doubled while staying `≤ a` (fuel-bounded): the
largest `e ≤ fuel` with `t * 2^e ≤ a`, assuming `t ≤ a`. -/
def doublings (a : Nat) : Nat → Nat → Nat
  | 0, _ => 0
  | f + 1, t => if 2 * t ≤ a then doublings a f (2 * t) + 1 else 0

/-- Floor of the binary logarithm of `a / b` (`a, b ≠ 0`): the unique `e` with
`2^e ≤ a/b < 2^(e+1)`, found by doubling the smaller side.  The search depth
covers the whole binary64 range; a quotient below `2^-1100` saturates, which
the conversion only ever uses as "below the subnormal cutoff". -/
def ratLog2 (a b : Nat) : Int :=
  if b ≤ a then (doublings a 1100 b : Int)
  else -((doublings (b - 1) 1100 a : Int) + 1)

/-- Nearest integer to `n / d` (`d ≠ 0`), ties to even. -/
def natDivNearestEven (n d : Nat) : Nat :=
  let q := n / d
  let r := n % d
  if 2 * r < d then q
  else if d < 2 * r then q + 1
  else if q % 2 = 0 then q else q + 1

/-- Round `(a / b) / 2^me` to the nearest integer, ties to even. -/
def mantissaAt (a b : Nat) (me : Int) : Nat :=
  if 0 ≤ me then natDivNearestEven a (b * 2 ^ me.toNat)
  else natDivNearestEven (a * 2 ^ (-me).toNat) b

/-- Convert the exact decimal `(-1)^neg * d * 10^p` to the nearest binary64
double: round to nearest with ties to even; magnitudes at or beyond the
midpoint `2^1024 - 2^970` overflow to an infinity (IEEE round-to-nearest
overflow rule); magnitudes below the normal range round on the fixed subnormal
grid `2^-1074` and may flush to zero. -/
def decToDouble (neg : Bool) (d : Nat) (p : Int) : JNum :=
  if d = 0 then .finite neg 0 0
  else
    let a := if 0 ≤ p then d * 10 ^ p.toNat else d
    let b := if 0 ≤ p then 1 else 10 ^ (-p).toNat
    if b * (2 ^ 1024 - 2 ^ 970) ≤ a then (if neg then .negInf else .posInf)
    else
      let e2 := ratLog2 a b
      if e2 < -1022 then
        let m := mantissaAt a b (-1074)
        if m = 0 then .finite neg 0 0 else .finite neg m (-1074)
      else
        let m := mantissaAt a b (e2 - 52)
        if m = 2 ^ 53 then .finite neg (2 ^ 52) (e2 - 51) else .finite neg m (e2 - 52)

/-- The numeric conversion of `JSON.parse`: lexeme to double. -/
def strToDouble (t : List Char) : JNum :=
  let s := decodeDec t
  decToDouble s.1 s.2.1 s.2.2

/-! ## JSON string scanning (after the opening quote) -/

mutual
/-- Scan a JSON string body up to the closing quote, decoding escapes.
Unescaped control characters and bare backslashes at the end are rejected, as
the host rejects them.  A lone surrogate escape is also rejected: the host
accepts it as an unpaired UTF-16 code unit, which has no counterpart among the
Unicode scalar values that Lean strings range over, so such texts are outside
the model's domain (no claim's statement depends on them). -/
def parseStringBody : List Char → Option (List Char × List Char)
  | [] => none
  | c :: rest =>
    if c == '"' then some ([], rest)
    else if c == '\\' then parseEsc rest
    else if c.toNat < 0x20 then none
    else (parseStringBody rest).map fun p => (c :: p.1, p.2)
/-- Scan the remainder of an escape sequence (the backslash is consumed). -/
def parseEsc : List Char → Option (List Char × List Char)
  | 'u' :: a :: b :: c :: d :: rest =>
    (hex4? a b c d).bind fun n =>
      if n < 0xd800 ∨ 0xdfff < n then
        (parseStringBody rest).map fun p => (Char.ofNat n :: p.1, p.2)
      else if n ≤ 0xdbff then parseLowSurrogate n rest
      else none
  | e :: rest =>
    (escMap? e).bind fun ch => (parseStringBody rest).map fun p => (ch :: p.1, p.2)
  | [] => none
/-- After a high surrogate `\uXXXX`, scan the mandatory low-surrogate escape and
combine the pair into one scalar value. -/
def parseLowSurrogate (n : Nat) : List Char → Option (List Char × List Char)
  | '\\' :: 'u' :: a2 :: b2 :: c2 :: d2 :: rest2 =>
    (hex4? a2 b2 c2 d2).bind fun m =>
      if 0xdc00 ≤ m ∧ m ≤ 0xdfff then
        (parseStringBody rest2).map fun p =>
          (Char.ofNat (0x10000 + (n - 0xd800) * 0x400 + (m - 0xdc00)) :: p.1, p.2)
      else none
  | _ => none
end

/-! ## JSON recursive-descent parser

Fuel-driven; every nesting step decrements the fuel, and the entry point
supplies `3 * length + 3`: entering a nested value costs at most three units
(value, element list, element tail) while consuming at least one character. -/

mutual
def parseValue : Nat → List Char → Option (Json × List Char)
  | 0, _ => none
  | f + 1, cs =>
    if "null".data.isPrefixOf (skipWs cs) then some (.null, (skipWs cs).drop 4)
    else if "true".data.isPrefixOf (skipWs cs) then some (.bool true, (skipWs cs).drop 4)
    else if "false".data.isPrefixOf (skipWs cs) then some (.bool false, (skipWs cs).drop 5)
    else if (skipWs cs).head? == some '"' then
      (parseStringBody (skipWs cs).tail).map fun p => (.str p.1, p.2)
    else if (skipWs cs).head? == some '[' then
      (parseElems f (skipWs cs).tail).map fun p => (.arr p.1, p.2)
    else if (skipWs cs).head? == some '{' then
      (parseMembers f (skipWs cs).tail).map fun p => (.obj p.1, p.2)
    else (parseNumberTok (skipWs cs)).map fun p => (.num (strToDouble p.1), p.2)
termination_by structural f => f
def parseElems : Nat → List Char → Option (JList × List Char)
  | 0, _ => none
  | f + 1, cs =>
    if (skipWs cs).head? == some ']' then some (.nil, (skipWs cs).tail)
    else parseElems1 f (skipWs cs)
termination_by structural f => f
def parseElems1 : Nat → List Char → Option (JList × List Char)
  | 0, _ => none
  | f + 1, cs =>
    (parseValue f cs).bind fun v =>
      if (skipWs v.2).head? == some ',' then
        (parseElems1 f (skipWs v.2).tail).map fun p => (.cons v.1 p.1, p.2)
      else if (skipWs v.2).head? == some ']' then some (.cons v.1 .nil, (skipWs v.2).tail)
      else none
termination_by structural f => f
def parseMembers : Nat → List Char → Option (JObj × List Char)
  | 0, _ => none
  | f + 1, cs =>
    if (skipWs cs).head? == some '}' then some (.nil, (skipWs cs).tail)
    else parseMembers1 f (skipWs cs)
termination_by structural f => f
def parseMembers1 : Nat → List Char → Option (JObj × List Char)
  | 0, _ => none
  | f + 1, cs =>
    if (skipWs cs).head? == some '"' then
      (parseStringBody (skipWs cs).tail).bind fun k =>
        if (skipWs k.2).head? == some ':' then
          (parseValue f (skipWs k.2).tail).bind fun v =>
            if (skipWs v.2).head? == some ',' then
              (parseMembers1 f (skipWs v.2).tail).map fun p =>
                (objDefine k.1 v.1 p.1, p.2)
            else if (skipWs v.2).head? == some '}' then
              some (.cons k.1 v.1 .nil, (skipWs v.2).tail)
            else none
        else none
    else none
termination_by structural f => f
end

/-- `JSON.parse`: parse a complete text (only insignificant whitespace may trail).
The fuel bounds the recursion depth; entering a nested value costs at most three
units (value, element-list, element-tail) while consuming at least one character,
so `3 * length + 3` units never run out. -/
def jsonParse (cs : List Char) : Option Json :=
  (parseValue (3 * cs.length + 3) cs).bind fun v =>
    if (skipWs v.2).isEmpty then some v.1 else none

/-! ## JSON serialization (`JSON.stringify` with no spacing) -/

/-- Hexadecimal digit character (lowercase). -/
def hexDig (n : Nat) : Char :=
  if n < 10 then Char.ofNat ('0'.toNat + n) else Char.ofNat ('a'.toNat + n - 10)

/-- How `JSON.stringify` escapes one character of a string: backslash-escape the
quote and the backslash, pass every other printable character through, use the
short escapes for the five named control characters, and `\u00XX` for the rest
of the control range. -/
def escChar (c : Char) : List Char :=
  if c = '"' ∨ c = '\\' then ['\\', c]
  else if 0x20 ≤ c.toNat then [c]
  else if c = '\x08' then ['\\', 'b']
  else if c = '\t' then ['\\', 't']
  else if c = '\n' then ['\\', 'n']
  else if c = '\x0c' then ['\\', 'f']
  else if c = '\r' then ['\\', 'r']
  else ['\\', 'u', '0', '0', hexDig (c.toNat / 16), hexDig (c.toNat % 16)]

/-- Escape a whole string body. -/
def escStr (s : List Char) : List Char := (s.map escChar).flatten

/-! ## Double to decimal string

`JSON.stringify` writes a finite Number with `ToString` (ECMA-262 6.1.6.1.20,
radix 10): pick the smallest digit count `k` for which some `k`-digit integer
`s` (`10^(k-1) ≤ s < 10^k`) makes `s * 10^(n-k)` convert back to exactly this
double, choosing the candidate closest to the exact value (a tie goes to the
even `s`), then lay the digits out in fixed or exponential notation depending
on the decimal exponent.  A non-finite Number is written as `null`. -/

/-- How many times `t` can be multiplied by ten while staying `≤ a`
(fuel-bounded): the largest `e ≤ fuel` with `t * 10^e ≤ a`, assuming `t ≤ a`. -/
def decuplings (a : Nat) : Nat → Nat → Nat
  | 0, _ => 0
  | f + 1, t => if 10 * t ≤ a then decuplings a f (10 * t) + 1 else 0

/-- Floor of the decimal logarithm of `a / b` (`a, b ≠ 0`): the unique `e` with
`10^e ≤ a/b < 10^(e+1)`; the search depth covers the binary64 range. -/
def ratLog10 (a b : Nat) : Int :=
  if b ≤ a then (decuplings a 400 b : Int)
  else -((decuplings (b - 1) 400 a : Int) + 1)

/-- Floor of `(a / b) / 10^d`. -/
def floorScaled (a b : Nat) (d : Int) : Nat :=
  if 0 ≤ d then a / (b * 10 ^ d.toNat) else a * 10 ^ (-d).toNat / b

/-- Compare `a / b` with the midpoint `(2s + 1)/2 * 10^d` of the two decimal
candidates `s * 10^d` and `(s+1) * 10^d`, exactly. -/
def cmpMid (a b s : Nat) (d : Int) : Ordering :=
  if 0 ≤ d then compare (2 * a) (b * (2 * s + 1) * 10 ^ d.toNat)
  else compare (2 * a * 10 ^ (-d).toNat) (b * (2 * s + 1))

/-- A rounded-up candidate that reaches `10^k` is the single digit `1` with the
decimal exponent advanced by one. -/
def norm10 (s k : Nat) (n : Int) : Nat × Int :=
  if s = 10 ^ k then (1, n + 1) else (s, n)

/-- Base-10 digits of a positive number, most significant first (fuel-bounded;
an exhausted fuel or a zero yields no digits). -/
def digitsOf : Nat → Nat → List Char
  | 0, _ => []
  | f + 1, n => if n = 0 then [] else digitsOf f (n / 10) ++ [Char.ofNat (48 + n % 10)]

/-- The search of `Number::toString` for the value `mant * 2^e2 = av / bv` with
decimal exponent `n` (`10^(n-1) ≤ av/bv < 10^n`): at each digit count `k` the
two nearest `k`-digit decimals are the floor and ceiling of `(av/bv) / 10^(n-k)`
(every other `k`-digit decimal is farther, and the set converting to this
double is an interval around it), so test those two and move to `k + 1` when
neither converts back.  Returns the digits value and its decimal exponent. -/
def shortestFrom (m : Nat) (e2 : Int) (av bv : Nat) (n : Int) :
    Nat → Nat → Option (Nat × Int)
  | 0, _ => none
  | fuel + 1, k =>
    let d := n - (k : Int)
    let s1 := floorScaled av bv d
    if decToDouble false s1 d = JNum.finite false m e2 then
      if decToDouble false (s1 + 1) d = JNum.finite false m e2 then
        match cmpMid av bv s1 d with
        | .lt => some (s1, n)
        | .gt => some (norm10 (s1 + 1) k n)
        | .eq => if s1 % 2 = 0 then some (s1, n) else some (norm10 (s1 + 1) k n)
      else some (s1, n)
    else if decToDouble false (s1 + 1) d = JNum.finite false m e2 then
      some (norm10 (s1 + 1) k n)
    else shortestFrom m e2 av bv n fuel (k + 1)

/-- Lay `k = ds.length` digits with decimal exponent `n` out per
`Number::toString`: trailing zeros up to the point for `k ≤ n ≤ 21`, an
embedded decimal point for `0 < n < k ≤ 21`-style values, a leading `0.` with
padding for `-6 < n ≤ 0`, and exponential notation otherwise. -/
def layoutDigits (ds : List Char) (n : Int) : List Char :=
  let k : Int := ds.length
  if k ≤ n ∧ n ≤ 21 then ds ++ List.replicate (n - k).toNat '0'
  else if 0 < n ∧ n ≤ 21 then ds.take n.toNat ++ '.' :: ds.drop n.toNat
  else if -6 < n ∧ n ≤ 0 then '0' :: '.' :: (List.replicate (-n).toNat '0' ++ ds)
  else
    ds.take 1 ++ (if 1 < k then '.' :: ds.drop 1 else []) ++
      'e' :: (if 0 ≤ n - 1 then '+' :: digitsOf 30 (n - 1).toNat
        else '-' :: digitsOf 30 (1 - n).toNat)

/-- `ToString` of a Number as `JSON.stringify` uses it: `null` for a non-finite
double, `0` for either zero, otherwise the sign and the shortest-round-trip
decimal.  (Seventeen significant digits always convert back exactly, so the
search cannot exhaust its fuel.) -/
def jnumToString : JNum → List Char
  | .posInf => "null".data
  | .negInf => "null".data
  | .finite neg m e2 =>
    if m = 0 then ['0']
    else
      let av := if 0 ≤ e2 then m * 2 ^ e2.toNat else m
      let bv := if 0 ≤ e2 then 1 else 2 ^ (-e2).toNat
      let n := ratLog10 av bv + 1
      let body :=
        match shortestFrom m e2 av bv n 18 1 with
        | some p => layoutDigits (digitsOf 30 p.1) p.2
        | none => ['0']
      if neg then '-' :: body else body

mutual
def serVal : Json → List Char
  | .null => "null".data
  | .bool true => "true".data
  | .bool false => "false".data
  | .num jn => jnumToString jn
  | .str s => '"' :: escStr s ++ ['"']
  | .arr l => '[' :: serList l ++ [']']
  | .obj o => '{' :: serObj o ++ ['}']
def serList : JList → List Char
  | .nil => []
  | .cons v .nil => serVal v
  | .cons v rest => serVal v ++ ',' :: serList rest
def serObj : JObj → List Char
  | .nil => []
  | .cons k v .nil => '"' :: escStr k ++ '"' :: ':' :: serVal v
  | .cons k v rest => ('"' :: escStr k ++ '"' :: ':' :: serVal v) ++ ',' :: serObj rest
end

/-! ## Regex substitution passes

One fuel-driven scanner per `replace` call of `mockMinify`. -/

/-- Position just after the first `-->` (the lazy close of `<!--[\s\S]*?-->`). -/
def findHtmlCommentEnd? : List Char → Option (List Char)
  | '-' :: '-' :: '>' :: rest => some rest
  | _ :: rest => findHtmlCommentEnd? rest
  | [] => none

/-- `.replace(/<!--[\s\S]*?-->/g, "")`: drop each comment from `<!--` through the
nearest `-->`; an unterminated `<!--` matches nothing (and nothing after it can). -/
def remHtmlCommentsGo : Nat → List Char → List Char
  | 0, cs => cs
  | _ + 1, [] => []
  | f + 1, '<' :: '!' :: '-' :: '-' :: rest =>
    match findHtmlCommentEnd? rest with
    | some rest' => remHtmlCommentsGo f rest'
    | none => '<' :: '!' :: '-' :: '-' :: rest
  | f + 1, c :: cs => c :: remHtmlCommentsGo f cs

def remHtmlComments (cs : List Char) : List Char := remHtmlCommentsGo cs.length cs

/-- Position just after the first `*/` (the lazy close of `\/\*[\s\S]*?\*\//`). -/
def findBlockCommentEnd? : List Char → Option (List Char)
  | '*' :: '/' :: rest => some rest
  | _ :: rest => findBlockCommentEnd? rest
  | [] => none

/-- `.replace(/\/\*[\s\S]*?\*\//g, "")`: drop each block comment from `/*` through
the nearest `*/`; an unterminated `/*` matches nothing. -/
def remBlockCommentsGo : Nat → List Char → List Char
  | 0, cs => cs
  | _ + 1, [] => []
  | f + 1, '/' :: '*' :: rest =>
    match findBlockCommentEnd? rest with
    | some rest' => remBlockCommentsGo f rest'
    | none => '/' :: '*' :: rest
  | f + 1, c :: cs => c :: remBlockCommentsGo f cs

def remBlockComments (cs : List Char) : List Char := remBlockCommentsGo cs.length cs

/-- `.replace(/\/\/.*$/gm, "")`: from each `//`, drop up to (not including) the
next line terminator. -/
def remLineCommentsGo : Nat → List Char → List Char
  | 0, cs => cs
  | _ + 1, [] => []
  | f + 1, '/' :: '/' :: rest => remLineCommentsGo f (rest.dropWhile fun c => !lineTermChar c)
  | f + 1, c :: cs => c :: remLineCommentsGo f cs

def remLineComments (cs : List Char) : List Char := remLineCommentsGo cs.length cs

/-- `.replace(/\s+/g, " ")`: each maximal whitespace run becomes one space. -/
def collapseWsGo : Nat → List Char → List Char
  | 0, cs => cs
  | _ + 1, [] => []
  | f + 1, c :: cs =>
    if wsChar c then ' ' :: collapseWsGo f (cs.dropWhile wsChar)
    else c :: collapseWsGo f cs

def collapseWs (cs : List Char) : List Char := collapseWsGo cs.length cs

/-- `.replace(/;\s+/g, ";")`: drop the whitespace run following each semicolon. -/
def semiPassGo : Nat → List Char → List Char
  | 0, cs => cs
  | _ + 1, [] => []
  | f + 1, ';' :: cs => ';' :: semiPassGo f (cs.dropWhile wsChar)
  | f + 1, c :: cs => c :: semiPassGo f cs

def semiPass (cs : List Char) : List Char := semiPassGo cs.length cs

/-- `.replace(/{\s+/g, "{")`: drop the whitespace run following each `{`. -/
def bracePassGo : Nat → List Char → List Char
  | 0, cs => cs
  | _ + 1, [] => []
  | f + 1, '{' :: cs => '{' :: bracePassGo f (cs.dropWhile wsChar)
  | f + 1, c :: cs => c :: bracePassGo f cs

def bracePass (cs : List Char) : List Char := bracePassGo cs.length cs

/-- `.replace(/\s+}/g, "}")`: drop each whitespace run that is followed by `}`. -/
def closeBracePassGo : Nat → List Char → List Char
  | 0, cs => cs
  | _ + 1, [] => []
  | f + 1, c :: cs =>
    if wsChar c then
      match cs.dropWhile wsChar with
      | '}' :: rest => '}' :: closeBracePassGo f rest
      | _ => c :: closeBracePassGo f cs
    else c :: closeBracePassGo f cs

def closeBracePass (cs : List Char) : List Char := closeBracePassGo cs.length cs

/-- `.replace(/>\s+</g, "><")`: drop each whitespace run between `>` and `<`. -/
def gtLtPassGo : Nat → List Char → List Char
  | 0, cs => cs
  | _ + 1, [] => []
  | f + 1, '>' :: c :: cs =>
    if wsChar c then
      match cs.dropWhile wsChar with
      | '<' :: rest => '>' :: '<' :: gtLtPassGo f rest
      | _ => '>' :: gtLtPassGo f (c :: cs)
    else '>' :: gtLtPassGo f (c :: cs)
  | f + 1, c :: cs => c :: gtLtPassGo f cs

def gtLtPass (cs : List Char) : List Char := gtLtPassGo cs.length cs

/-! ## File types and validation -/

inductive FileType where
  | html | css | json | js | jsx
deriving DecidableEq

structure ValidationResult where
  isValid : Bool
  error : Option (List Char)
deriving DecidableEq

/-- `/<[^>]+>/.test content`: some `<`, at least one non-`>` character, then `>`. -/
def htmlTagTest : List Char → Bool
  | '<' :: c :: cs => (c != '>' && cs.contains '>') || htmlTagTest (c :: cs)
  | _ :: cs => htmlTagTest cs
  | [] => false

/-- Neither brace. -/
def braceFree (c : Char) : Bool := c != '{' && c != '}'

/-- `/[^{}]*\{[^{}]*\}/.test content`: some `{` whose nearest following brace
character is `}`. -/
def cssRuleTest : List Char → Bool
  | '{' :: cs =>
    (match cs.dropWhile braceFree with
     | '}' :: _ => true
     | _ => false) || cssRuleTest cs
  | _ :: cs => cssRuleTest cs
  | [] => false

/-- `/(?:function|const|let|var|class|import|export|=>)/.test content`. -/
def jsMarkerTest (cs : List Char) : Bool :=
  containsSub "function".data cs || containsSub "const".data cs ||
  containsSub "let".data cs || containsSub "var".data cs ||
  containsSub "class".data cs || containsSub "import".data cs ||
  containsSub "export".data cs || containsSub "=>".data cs

/-- Uppercase ASCII letter, the class `[A-Z]`. -/
def upperAZ (c : Char) : Bool := 'A' ≤ c && c ≤ 'Z'

/-- The extra JSX alternatives `<[A-Z]` and `<\/[A-Z]`. -/
def jsxTagTest (cs : List Char) : Bool :=
  cs.tails.any fun t =>
    match t with
    | '<' :: '/' :: c :: _ => upperAZ c
    | '<' :: c :: _ => upperAZ c
    | _ => false

def emptyContentErr : List Char := "Content cannot be empty".data
def invalidHtmlErr : List Char := "Invalid HTML: No valid HTML tags found".data
def invalidCssErr : List Char := "Invalid CSS: No valid CSS rules found".data
def invalidJsErr : List Char := "Invalid JS: No valid JavaScript syntax found".data
def invalidJsxErr : List Char := "Invalid JSX: No valid JSX syntax found".data

/-- The JSON branch surfaces the host exception's message
(`Invalid JSON: ${error.message}`); the text after the prefix is host-defined,
so one representative message stands for it here. -/
def invalidJsonErr : List Char := "Invalid JSON: Syntax error".data

/-- `validateContent` of the source. -/
def validateContent (content : List Char) (t : FileType) : ValidationResult :=
  if (jsTrim content).isEmpty then ⟨false, some emptyContentErr⟩
  else
    match t with
    | .html =>
      if htmlTagTest content then ⟨true, none⟩ else ⟨false, some invalidHtmlErr⟩
    | .css =>
      if cssRuleTest (remBlockComments content) then ⟨true, none⟩
      else ⟨false, some invalidCssErr⟩
    | .json =>
      if (jsonParse content).isSome then ⟨true, none⟩ else ⟨false, some invalidJsonErr⟩
    | .js =>
      if jsMarkerTest content then ⟨true, none⟩ else ⟨false, some invalidJsErr⟩
    | .jsx =>
      if jsMarkerTest content || jsxTagTest content then ⟨true, none⟩
      else ⟨false, some invalidJsxErr⟩

/-! ## Minification and the result record -/

/-- `mockMinify` of the source; `none` models the exception `JSON.parse` throws
on invalid JSON (the only fallible branch). -/
def mockMinify (content : List Char) (t : FileType) : Option (List Char) :=
  match t with
  | .html =>
    some (jsTrim (gtLtPass (collapseWs (remHtmlComments content))))
  | .css =>
    some (jsTrim (closeBracePass (bracePass (semiPass (collapseWs
      (remBlockComments content))))))
  | .json => (jsonParse content).map serVal
  | .js | .jsx =>
    some (jsTrim (closeBracePass (bracePass (semiPass (collapseWs
      (remBlockComments (remLineComments content)))))))

structure MinificationResult where
  minified : List Char
  originalSize : Nat
  minifiedSize : Nat
  reductionPercentage : Int
deriving DecidableEq

/-- `Math.round`: round half toward positive infinity. -/
def jsRound (q : ℚ) : Int := Int.floor (q + 1 / 2)

/-- `handleMinify` of the source: guarded by the current validation verdict and a
non-blank input, it minifies and assembles the statistics record
(`new Blob([s]).size` is the UTF-8 byte length). -/
def handleMinify (inputCode : List Char) (t : FileType) : Option MinificationResult :=
  if (validateContent inputCode t).isValid && !(jsTrim inputCode).isEmpty then
    (mockMinify inputCode t).map fun minified =>
      { minified := minified
        originalSize := utf8Len inputCode
        minifiedSize := utf8Len minified
        reductionPercentage :=
          jsRound (((utf8Len inputCode : ℚ) - (utf8Len minified : ℚ))
            / (utf8Len inputCode : ℚ) * 100) }
  else none

/-- The size gate of `handleFileUpload`: files beyond `1024 * 1024` bytes are
rejected with this error before any content validation. -/
def uploadSizeError (size : Nat) : Option (List Char) :=
  if 1024 * 1024 < size then some "File size exceeds 1MB limit".data else none

/-! ## Redundancy, for the size-monotonicity claim -/

/-- A comment opener of the given kind occurs in the text. -/
def hasCommentMarker (cs : List Char) (t : FileType) : Bool :=
  match t with
  | .html => containsSub "<!--".data cs
  | .css => containsSub "/*".data cs
  | .js | .jsx => containsSub "//".data cs || containsSub "/*".data cs
  | .json => false

/-- A redundant whitespace run: two adjacent whitespace characters, leading or
trailing whitespace, or a whitespace character other than a plain space. -/
def hasRedundantWs (cs : List Char) : Bool :=
  (cs.tails.any fun t =>
    match t with
    | a :: b :: _ => wsChar a && wsChar b
    | _ => false) ||
  (match cs.head? with | some c => wsChar c | none => false) ||
  (match cs.getLast? with | some c => wsChar c | none => false) ||
  cs.any fun c => wsChar c && c != ' '

/-- The text contains at least one comment or redundant whitespace run. -/
def hasRedundancy (cs : List Char) (t : FileType) : Bool :=
  hasCommentMarker cs t || hasRedundantWs cs

/-! ## Whitespace shape predicates (for the collapse invariant) -/

/-- No two adjacent whitespace characters anywhere in the text. -/
def noAdjWs (l : List Char) : Prop :=
  List.Chain' (fun a b => ¬(wsChar a = true ∧ wsChar b = true)) l

/-- Every whitespace character of the text is a plain space. -/
def wsOnlySpace (l : List Char) : Prop := ∀ c ∈ l, wsChar c = true → c = ' '

/-! # Theorems -/

/-! ## Helper lemmas -/

theorem utf8Len_nil : utf8Len [] = 0 := rfl

theorem utf8Len_cons (c : Char) (cs : List Char) :
    utf8Len (c :: cs) = c.utf8Size + utf8Len cs := by
  simp [utf8Len]

theorem utf8Len_append (a b : List Char) :
    utf8Len (a ++ b) = utf8Len a + utf8Len b := by
  simp [utf8Len]

theorem utf8Len_reverse (l : List Char) : utf8Len l.reverse = utf8Len l := by
  simp [utf8Len, List.sum_reverse]

theorem utf8Len_pos {l : List Char} (h : l ≠ []) : 0 < utf8Len l := by
  cases l with
  | nil => exact absurd rfl h
  | cons c cs =>
    rw [utf8Len_cons]
    exact Nat.lt_of_lt_of_le (Char.utf8Size_pos c) (Nat.le_add_right _ _)

theorem utf8Len_suffix_le {t l : List Char} (h : t <:+ l) : utf8Len t ≤ utf8Len l := by
  obtain ⟨pre, rfl⟩ := h
  rw [utf8Len_append]
  exact Nat.le_add_left _ _

theorem utf8Len_dropWhile_le (p : Char → Bool) (l : List Char) :
    utf8Len (l.dropWhile p) ≤ utf8Len l :=
  utf8Len_suffix_le (List.dropWhile_suffix p)

/-! ## C1, C3, C4: concrete behaviour of the regex minifier -/

/-- C1: the claim says a script string literal `//not a comment` survives
minification byte-for-byte; in the code, the line-comment pass deletes from the
`//` inside the literal to the end of the line, so the minified output of
`const x = "//not a comment";` is `const x = "` and the literal is gone. -/
theorem c1_js_string_literal_corrupted :
    mockMinify "const x = \"//not a comment\";".data .js = some "const x = \"".data ∧
    containsSub "//not a comment".data
      ((mockMinify "const x = \"//not a comment\";".data .js).getD []) = false := by
  constructor
  · rfl
  · rfl

/-- C3: the claim says `.a { color: red; /* note */ }` is valid CSS and minifies
to `.a{color:red;}`; the code does judge it valid, but its passes leave the
spaces after `.a` and after `color:`, producing `.a {color: red;}` instead. -/
theorem c3_css_fixture_output :
    validateContent ".a \x7b color: red; /* note */ \x7d".data .css = ⟨true, none⟩ ∧
    mockMinify ".a \x7b color: red; /* note */ \x7d".data .css =
      some ".a \x7bcolor: red;\x7d".data ∧
    ".a \x7bcolor: red;\x7d".data ≠ ".a\x7bcolor:red;\x7d".data := by
  refine ⟨rfl, rfl, ?_⟩
  decide

/-- C4: the claim says minification is idempotent for every kind; on the markup
input `<!-<!--c-->- foo -->` the comment pass deletes the inner comment and
splices a brand-new `<!-- foo -->` comment together, so a second minification
yields `""` while the first yields `<!-- foo -->`. -/
theorem c4_minify_not_idempotent :
    (mockMinify "<!-<!--c-->- foo -->".data .html).bind
        (fun y => mockMinify y .html) ≠
      mockMinify "<!-<!--c-->- foo -->".data .html := by
  decide

/-! ## C6: empty input -/

theorem jsTrim_eq_nil_of_all_ws {l : List Char} (h : ∀ c ∈ l, wsChar c = true) :
    jsTrim l = [] := by
  have h1 : l.dropWhile wsChar = [] := List.dropWhile_eq_nil_iff.mpr h
  simp [jsTrim, h1]

/-- C6 counterexample: the claim says the invalid verdict for empty input carries
reason `empty input`; the code's reason is `Content cannot be empty`. -/
theorem c6_empty_reason_counterexample :
    validateContent [] .js = ⟨false, some emptyContentErr⟩ ∧
    emptyContentErr ≠ "empty input".data := by
  exact ⟨rfl, by decide⟩

/-- C6 (amended): for every content kind, validating an empty or whitespace-only
text returns an invalid verdict whose reason is `Content cannot be empty`. -/
theorem c6_empty_input_rejected (content : List Char) (t : FileType)
    (h : ∀ c ∈ content, wsChar c = true) :
    validateContent content t = ⟨false, some emptyContentErr⟩ := by
  unfold validateContent
  rw [jsTrim_eq_nil_of_all_ws h]
  rfl

/-- C6 witness. -/
theorem c6_empty_input_rejected_witness :
    validateContent " ".data .css = ⟨false, some emptyContentErr⟩ :=
  c6_empty_input_rejected " ".data .css (by decide)

/-! ## C10: the script marker test -/

theorem containsSub_of_isPrefixOf {pat l : List Char} (h : pat.isPrefixOf l = true) :
    containsSub pat l = true := by
  unfold containsSub
  rw [List.any_eq_true]
  exact ⟨l, by simp [List.mem_tails], h⟩

theorem jsTrim_ne_nil {l : List Char} {c : Char} (hm : c ∈ l) (hc : wsChar c = false) :
    jsTrim l ≠ [] := by
  intro hnil
  have h0 : (l.dropWhile wsChar).reverse.dropWhile wsChar = [] := by
    have h2 := congrArg List.reverse hnil
    simpa [jsTrim] using h2
  have h1 : ∀ x ∈ (l.dropWhile wsChar).reverse, wsChar x = true :=
    List.dropWhile_eq_nil_iff.mp h0
  have hcd : c ∈ l.dropWhile wsChar := by
    have hsplit : c ∈ l.takeWhile wsChar ++ l.dropWhile wsChar := by
      rw [List.takeWhile_append_dropWhile wsChar l]; exact hm
    rcases List.mem_append.mp hsplit with h | h
    · exact absurd (List.mem_takeWhile_imp h) (by simp [hc])
    · exact h
  have h3 := h1 c (List.mem_reverse.mpr hcd)
  simp [hc] at h3

/-- C10: validation under kind `js` accepts any non-whitespace-only text in which
one of the marker substrings occurs anywhere, and in particular plain English
prose containing the word `export` is judged valid. -/
theorem c10_js_marker_accepts :
    (∀ content : List Char, (jsTrim content).isEmpty = false →
      jsMarkerTest content = true → validateContent content .js = ⟨true, none⟩) ∧
    validateContent "We export goods to many countries.".data .js = ⟨true, none⟩ := by
  constructor
  · intro content h1 h2
    unfold validateContent
    rw [h1]
    simp [h2]
  · rfl

/-- C10 witness. -/
theorem c10_js_marker_accepts_witness :
    validateContent "totally => not js".data .js = ⟨true, none⟩ :=
  c10_js_marker_accepts.1 "totally => not js".data (by rfl) (by rfl)

/-! ## C7: size ceiling -/

theorem utf8Len_replicate (n : Nat) (c : Char) :
    utf8Len (List.replicate n c) = n * c.utf8Size := by
  induction n with
  | zero => simp [utf8Len]
  | succ k ih => rw [List.replicate_succ, utf8Len_cons, ih]; ring

theorem bigScript_marker : jsMarkerTest ("const".data ++ List.replicate (2 * 1024 * 1024) 'a') = true := by
  unfold jsMarkerTest
  rw [containsSub_of_isPrefixOf (List.isPrefixOf_iff_prefix.mpr
    (List.prefix_append "const".data (List.replicate (2 * 1024 * 1024) 'a'))),
    Bool.or_true, Bool.true_or, Bool.true_or, Bool.true_or, Bool.true_or, Bool.true_or,
    Bool.true_or]

/-- C7 counterexample: the claim says any text over the 1 MiB ceiling is rejected
by validation regardless of kind; `validateContent` applies no size ceiling, and
this 2 MiB script text is judged valid. -/
theorem c7_oversize_accepted_counterexample :
    1024 * 1024 < utf8Len ("const".data ++ List.replicate (2 * 1024 * 1024) 'a') ∧
    validateContent ("const".data ++ List.replicate (2 * 1024 * 1024) 'a') .js =
      ⟨true, none⟩ := by
  constructor
  · rw [utf8Len_append, utf8Len_replicate, show 'a'.utf8Size = 1 from rfl,
      show utf8Len "const".data = 5 from rfl]
    norm_num
  · have hne : jsTrim ("const".data ++ List.replicate (2 * 1024 * 1024) 'a') ≠ [] := by
      refine jsTrim_ne_nil (c := 'c') (List.mem_append_left _ ?_) (by decide)
      show 'c' ∈ "const".data
      decide
    have hemp : (jsTrim ("const".data ++ List.replicate (2 * 1024 * 1024) 'a')).isEmpty
        = false := by
      cases hcase : jsTrim ("const".data ++ List.replicate (2 * 1024 * 1024) 'a') with
      | nil => exact absurd hcase hne
      | cons a l => rfl
    unfold validateContent
    rw [hemp, if_neg Bool.false_ne_true, bigScript_marker, if_pos rfl]

/-- C7 (amended): the only size ceiling is the upload handler's, which rejects
files larger than 1024·1024 bytes with the error `File size exceeds 1MB limit`
before any content validation; `validateContent` itself imposes no ceiling, so an
oversized pasted text can still be judged valid. -/
theorem c7_upload_gate (size : Nat) (h : 1024 * 1024 < size) :
    uploadSizeError size = some "File size exceeds 1MB limit".data := by
  unfold uploadSizeError
  rw [if_pos h]

/-- C7 witness: a 2 MiB upload is rejected. -/
theorem c7_upload_gate_witness :
    uploadSizeError (2 * 1024 * 1024) = some "File size exceeds 1MB limit".data :=
  c7_upload_gate (2 * 1024 * 1024) (by norm_num)

/-! ## C8: the statistics record -/

/-- C8: the record built by `handleMinify` measures both texts in UTF-8 bytes,
its reduction percentage is exactly `round (100 * (original - minified) / original)`
(reported as-is, so negative values are not clamped), and a zero original size
gives percentage 0 — vacuously, since blank input is filtered out before any
record is built, so no record with a zero original size exists. -/
theorem c8_report_fields (inputCode : List Char) (t : FileType)
    (r : MinificationResult) (h : handleMinify inputCode t = some r) :
    r.originalSize = utf8Len inputCode ∧
    r.minifiedSize = utf8Len r.minified ∧
    r.reductionPercentage =
      jsRound (((utf8Len inputCode : ℚ) - (utf8Len r.minified : ℚ))
        / (utf8Len inputCode : ℚ) * 100) ∧
    (r.originalSize = 0 → r.reductionPercentage = 0) := by
  unfold handleMinify at h
  by_cases hg : ((validateContent inputCode t).isValid &&
      !(jsTrim inputCode).isEmpty) = true
  · rw [if_pos hg] at h
    obtain ⟨m, hm, rfl⟩ := Option.map_eq_some'.mp h
    refine ⟨rfl, rfl, rfl, ?_⟩
    intro h0
    exfalso
    have hne : inputCode ≠ [] := by
      intro hnil
      rw [hnil] at hg
      simp [jsTrim] at hg
    have hpos := utf8Len_pos hne
    have : utf8Len inputCode = 0 := h0
    omega
  · rw [if_neg hg] at h
    exact absurd h (by simp)

theorem handleMinify_concrete :
    handleMinify "const x = 1;".data .js =
      some ⟨"const x = 1;".data, 12, 12, 0⟩ := by
  unfold handleMinify
  rw [if_pos (by rfl)]
  refine Option.map_eq_some'.mpr ⟨"const x = 1;".data, rfl, ?_⟩
  have h12 : utf8Len "const x = 1;".data = 12 := rfl
  simp only [h12, MinificationResult.mk.injEq]
  refine ⟨trivial, trivial, trivial, ?_⟩
  unfold jsRound
  norm_num

/-- C8 witness. -/
theorem c8_report_fields_witness :
    (⟨"const x = 1;".data, 12, 12, 0⟩ : MinificationResult).originalSize =
      utf8Len "const x = 1;".data ∧
    (⟨"const x = 1;".data, 12, 12, 0⟩ : MinificationResult).reductionPercentage =
      jsRound (((utf8Len "const x = 1;".data : ℚ) - (utf8Len "const x = 1;".data : ℚ))
        / (utf8Len "const x = 1;".data : ℚ) * 100) := by
  have h := c8_report_fields "const x = 1;".data .js
    ⟨"const x = 1;".data, 12, 12, 0⟩ handleMinify_concrete
  exact ⟨h.1, h.2.2.1⟩

/-! ## C5: byte-size monotonicity of the regex passes -/

theorem findHtmlCommentEnd?_suffix (l r : List Char) (h : findHtmlCommentEnd? l = some r) :
    r <:+ l := by
  induction l using findHtmlCommentEnd?.induct with
  | case1 rest =>
    simp [findHtmlCommentEnd?] at h
    rw [← h]
    exact (List.suffix_cons _ _).trans ((List.suffix_cons _ _).trans (List.suffix_cons _ _))
  | case2 c rest hpat ih =>
    rw [findHtmlCommentEnd?] at h
    · exact (ih h).trans (List.suffix_cons _ _)
    · exact hpat
  | case3 =>
    simp [findHtmlCommentEnd?] at h

theorem findBlockCommentEnd?_suffix (l r : List Char) (h : findBlockCommentEnd? l = some r) :
    r <:+ l := by
  induction l using findBlockCommentEnd?.induct with
  | case1 rest =>
    simp [findBlockCommentEnd?] at h
    rw [← h]
    exact (List.suffix_cons _ _).trans (List.suffix_cons _ _)
  | case2 c rest hpat ih =>
    rw [findBlockCommentEnd?] at h
    · exact (ih h).trans (List.suffix_cons _ _)
    · exact hpat
  | case3 =>
    simp [findBlockCommentEnd?] at h

theorem remHtmlCommentsGo_utf8_le (f : Nat) (cs : List Char) :
    utf8Len (remHtmlCommentsGo f cs) ≤ utf8Len cs := by
  induction f, cs using remHtmlCommentsGo.induct with
  | case1 cs => exact Nat.le_refl _
  | case2 f => exact Nat.le_refl _
  | case3 f rest rest' hfind ih =>
    rw [remHtmlCommentsGo, hfind]
    refine ih.trans ((utf8Len_suffix_le (findHtmlCommentEnd?_suffix _ _ hfind)).trans ?_)
    simp [utf8Len_cons]
    omega
  | case4 f rest hfind =>
    rw [remHtmlCommentsGo, hfind]
  | case5 f c cs hpat ih =>
    rw [remHtmlCommentsGo]
    · rw [utf8Len_cons, utf8Len_cons]
      exact Nat.add_le_add_left ih _
    · exact hpat

theorem remBlockCommentsGo_utf8_le (f : Nat) (cs : List Char) :
    utf8Len (remBlockCommentsGo f cs) ≤ utf8Len cs := by
  induction f, cs using remBlockCommentsGo.induct with
  | case1 cs => exact Nat.le_refl _
  | case2 f => exact Nat.le_refl _
  | case3 f rest rest' hfind ih =>
    rw [remBlockCommentsGo, hfind]
    refine ih.trans ((utf8Len_suffix_le (findBlockCommentEnd?_suffix _ _ hfind)).trans ?_)
    simp [utf8Len_cons]
    omega
  | case4 f rest hfind =>
    rw [remBlockCommentsGo, hfind]
  | case5 f c cs hpat ih =>
    rw [remBlockCommentsGo]
    · rw [utf8Len_cons, utf8Len_cons]
      exact Nat.add_le_add_left ih _
    · exact hpat

theorem remLineCommentsGo_utf8_le (f : Nat) (cs : List Char) :
    utf8Len (remLineCommentsGo f cs) ≤ utf8Len cs := by
  induction f, cs using remLineCommentsGo.induct with
  | case1 cs => exact Nat.le_refl _
  | case2 f => exact Nat.le_refl _
  | case3 f rest ih =>
    rw [remLineCommentsGo]
    refine ih.trans ((utf8Len_dropWhile_le _ rest).trans ?_)
    rw [utf8Len_cons, utf8Len_cons]
    omega
  | case4 f c cs hpat ih =>
    rw [remLineCommentsGo]
    · rw [utf8Len_cons, utf8Len_cons]
      exact Nat.add_le_add_left ih _
    · exact hpat

theorem collapseWsGo_utf8_le (f : Nat) (cs : List Char) :
    utf8Len (collapseWsGo f cs) ≤ utf8Len cs := by
  induction f, cs using collapseWsGo.induct with
  | case1 cs => exact Nat.le_refl _
  | case2 f => exact Nat.le_refl _
  | case3 f c cs hws ih =>
    rw [collapseWsGo, if_pos hws, utf8Len_cons, utf8Len_cons]
    have h1 : utf8Len (collapseWsGo f (cs.dropWhile wsChar)) ≤ utf8Len cs :=
      ih.trans (utf8Len_dropWhile_le _ cs)
    have h2 : 0 < c.utf8Size := Char.utf8Size_pos c
    have h3 : (' ' : Char).utf8Size = 1 := rfl
    omega
  | case4 f c cs hws ih =>
    rw [collapseWsGo, if_neg hws, utf8Len_cons, utf8Len_cons]
    exact Nat.add_le_add_left ih _

theorem semiPassGo_utf8_le (f : Nat) (cs : List Char) :
    utf8Len (semiPassGo f cs) ≤ utf8Len cs := by
  induction f, cs using semiPassGo.induct with
  | case1 cs => exact Nat.le_refl _
  | case2 f => exact Nat.le_refl _
  | case3 f cs ih =>
    rw [semiPassGo, utf8Len_cons, utf8Len_cons]
    exact Nat.add_le_add_left (ih.trans (utf8Len_dropWhile_le _ cs)) _
  | case4 f c cs hpat ih =>
    rw [semiPassGo]
    · rw [utf8Len_cons, utf8Len_cons]
      exact Nat.add_le_add_left ih _
    · exact hpat

theorem bracePassGo_utf8_le (f : Nat) (cs : List Char) :
    utf8Len (bracePassGo f cs) ≤ utf8Len cs := by
  induction f, cs using bracePassGo.induct with
  | case1 cs => exact Nat.le_refl _
  | case2 f => exact Nat.le_refl _
  | case3 f cs ih =>
    rw [bracePassGo, utf8Len_cons, utf8Len_cons]
    exact Nat.add_le_add_left (ih.trans (utf8Len_dropWhile_le _ cs)) _
  | case4 f c cs hpat ih =>
    rw [bracePassGo]
    · rw [utf8Len_cons, utf8Len_cons]
      exact Nat.add_le_add_left ih _
    · exact hpat

theorem closeBracePassGo_utf8_le (f : Nat) (cs : List Char) :
    utf8Len (closeBracePassGo f cs) ≤ utf8Len cs := by
  induction f, cs using closeBracePassGo.induct with
  | case1 cs => exact Nat.le_refl _
  | case2 f => exact Nat.le_refl _
  | case3 f c cs hws rest hdrop ih =>
    rw [closeBracePassGo, if_pos hws, hdrop]
    show utf8Len ('}' :: closeBracePassGo f rest) ≤ utf8Len (c :: cs)
    have h1 : utf8Len ('}' :: rest) ≤ utf8Len cs := by
      rw [← hdrop]
      exact utf8Len_suffix_le (List.dropWhile_suffix _)
    rw [utf8Len_cons] at h1 ⊢
    rw [utf8Len_cons]
    have h2 : 0 < c.utf8Size := Char.utf8Size_pos c
    omega
  | case4 f c cs hws hdrop ih =>
    rw [closeBracePassGo, if_pos hws]
    split
    · rename_i rest heq
      exact absurd heq (by intro hx; exact hdrop rest hx)
    · rw [utf8Len_cons, utf8Len_cons]
      exact Nat.add_le_add_left ih _
  | case5 f c cs hws ih =>
    rw [closeBracePassGo, if_neg hws, utf8Len_cons, utf8Len_cons]
    exact Nat.add_le_add_left ih _

theorem gtLtPassGo_utf8_le (f : Nat) (cs : List Char) :
    utf8Len (gtLtPassGo f cs) ≤ utf8Len cs := by
  induction f, cs using gtLtPassGo.induct with
  | case1 cs => exact Nat.le_refl _
  | case2 f => exact Nat.le_refl _
  | case3 f c cs hws rest hdrop ih =>
    rw [gtLtPassGo, if_pos hws, hdrop]
    show utf8Len ('>' :: '<' :: gtLtPassGo f rest) ≤ utf8Len ('>' :: c :: cs)
    have h1 : utf8Len ('<' :: rest) ≤ utf8Len cs := by
      rw [← hdrop]
      exact utf8Len_suffix_le (List.dropWhile_suffix _)
    rw [utf8Len_cons] at h1
    rw [utf8Len_cons, utf8Len_cons, utf8Len_cons, utf8Len_cons]
    have h2 : 0 < c.utf8Size := Char.utf8Size_pos c
    have h3 : ('>' : Char).utf8Size = 1 := rfl
    have h4 : ('<' : Char).utf8Size = 1 := rfl
    omega
  | case4 f c cs hws hdrop ih =>
    rw [gtLtPassGo, if_pos hws]
    split
    · rename_i rest heq
      exact absurd heq (by intro hx; exact hdrop rest hx)
    · calc utf8Len ('>' :: gtLtPassGo f (c :: cs))
          = '>'.utf8Size + utf8Len (gtLtPassGo f (c :: cs)) := utf8Len_cons _ _
        _ ≤ '>'.utf8Size + utf8Len (c :: cs) := Nat.add_le_add_left ih _
        _ = utf8Len ('>' :: c :: cs) := (utf8Len_cons _ _).symm
  | case5 f c cs hws ih =>
    rw [gtLtPassGo, if_neg hws]
    calc utf8Len ('>' :: gtLtPassGo f (c :: cs))
        = '>'.utf8Size + utf8Len (gtLtPassGo f (c :: cs)) := utf8Len_cons _ _
      _ ≤ '>'.utf8Size + utf8Len (c :: cs) := Nat.add_le_add_left ih _
      _ = utf8Len ('>' :: c :: cs) := (utf8Len_cons _ _).symm
  | case6 f c cs hpat ih =>
    rw [gtLtPassGo]
    · rw [utf8Len_cons, utf8Len_cons]
      exact Nat.add_le_add_left ih _
    · exact hpat

theorem jsTrim_utf8_le (l : List Char) : utf8Len (jsTrim l) ≤ utf8Len l := by
  unfold jsTrim
  calc utf8Len ((l.dropWhile wsChar).reverse.dropWhile wsChar).reverse
      = utf8Len ((l.dropWhile wsChar).reverse.dropWhile wsChar) := utf8Len_reverse _
    _ ≤ utf8Len (l.dropWhile wsChar).reverse := utf8Len_dropWhile_le _ _
    _ = utf8Len (l.dropWhile wsChar) := utf8Len_reverse _
    _ ≤ utf8Len l := utf8Len_dropWhile_le _ _

/-- C5: for every markup, stylesheet, script or script-with-markup input that
contains at least one comment or redundant whitespace run, the minified output's
UTF-8 byte length does not exceed the input's. -/
theorem c5_size_monotonic (content : List Char) (t : FileType) (m : List Char)
    (hk : t = .html ∨ t = .css ∨ t = .js ∨ t = .jsx)
    (hr : hasRedundancy content t = true)
    (hm : mockMinify content t = some m) :
    utf8Len m ≤ utf8Len content := by
  have hhtml : utf8Len (jsTrim (gtLtPass (collapseWs (remHtmlComments content)))) ≤
      utf8Len content :=
    (jsTrim_utf8_le _).trans ((gtLtPassGo_utf8_le _ _).trans
      ((collapseWsGo_utf8_le _ _).trans (remHtmlCommentsGo_utf8_le _ _)))
  have hcss : utf8Len (jsTrim (closeBracePass (bracePass (semiPass (collapseWs
      (remBlockComments content)))))) ≤ utf8Len content :=
    (jsTrim_utf8_le _).trans ((closeBracePassGo_utf8_le _ _).trans
      ((bracePassGo_utf8_le _ _).trans ((semiPassGo_utf8_le _ _).trans
        ((collapseWsGo_utf8_le _ _).trans (remBlockCommentsGo_utf8_le _ _)))))
  have hjs : utf8Len (jsTrim (closeBracePass (bracePass (semiPass (collapseWs
      (remBlockComments (remLineComments content))))))) ≤ utf8Len content :=
    (jsTrim_utf8_le _).trans ((closeBracePassGo_utf8_le _ _).trans
      ((bracePassGo_utf8_le _ _).trans ((semiPassGo_utf8_le _ _).trans
        ((collapseWsGo_utf8_le _ _).trans ((remBlockCommentsGo_utf8_le _ _).trans
          (remLineCommentsGo_utf8_le _ _))))))
  rcases hk with rfl | rfl | rfl | rfl
  · rw [mockMinify] at hm
    rw [← Option.some_inj.mp hm]
    exact hhtml
  · rw [mockMinify] at hm
    rw [← Option.some_inj.mp hm]
    exact hcss
  · rw [mockMinify] at hm
    rw [← Option.some_inj.mp hm]
    exact hjs
  · rw [mockMinify] at hm
    rw [← Option.some_inj.mp hm]
    exact hjs

/-- C5 witness. -/
theorem c5_size_monotonic_witness :
    utf8Len ".a \x7bcolor: red;\x7d".data ≤
      utf8Len ".a \x7b color: red; /* note */ \x7d".data :=
  c5_size_monotonic ".a \x7b color: red; /* note */ \x7d".data .css
    ".a \x7bcolor: red;\x7d".data (Or.inr (Or.inl rfl)) (by rfl) (by rfl)

/-! ## C9: the global whitespace-collapse invariant -/

theorem dropWhile_head_not (p : Char → Bool) (l : List Char) (c : Char)
    (h : (l.dropWhile p).head? = some c) : p c = false := by
  induction l with
  | nil => simp [List.dropWhile] at h
  | cons a l ih =>
    by_cases hp : p a = true
    · rw [List.dropWhile_cons_of_pos hp] at h
      exact ih h
    · rw [List.dropWhile_cons_of_neg hp] at h
      simp at h
      rw [← h]
      simpa using hp

theorem chain'_of_suffix {R : Char → Char → Prop} {l d : List Char}
    (h : List.Chain' R l) (hs : d <:+ l) : List.Chain' R d := by
  obtain ⟨t, rfl⟩ := hs
  exact (List.chain'_append.mp h).2.1

theorem noAdjWs_suffix {l d : List Char} (h : noAdjWs l) (hs : d <:+ l) : noAdjWs d :=
  chain'_of_suffix h hs

theorem wsOnlySpace_suffix {l d : List Char} (h : wsOnlySpace l) (hs : d <:+ l) :
    wsOnlySpace d :=
  fun c hc hw => h c (hs.sublist.subset hc) hw

theorem noAdjWs_tail {a : Char} {l : List Char} (h : noAdjWs (a :: l)) : noAdjWs l :=
  List.Chain'.tail h

theorem noAdjWs_cons {a : Char} {l : List Char}
    (hp : ∀ b, l.head? = some b → ¬(wsChar a = true ∧ wsChar b = true))
    (h : noAdjWs l) : noAdjWs (a :: l) := by
  unfold noAdjWs
  rw [List.chain'_cons']
  exact ⟨fun b hb => hp b hb, h⟩

theorem noAdjWs_cons_left {a : Char} {l : List Char} (ha : wsChar a = false)
    (h : noAdjWs l) : noAdjWs (a :: l) :=
  noAdjWs_cons (fun b _ hab => by rw [ha] at hab; exact absurd hab.1 (by simp)) h

theorem noAdjWs_pair {a : Char} {l : List Char} (h : noAdjWs (a :: l)) :
    ∀ b, l.head? = some b → ¬(wsChar a = true ∧ wsChar b = true) := by
  unfold noAdjWs at h
  rw [List.chain'_cons'] at h
  exact fun b hb => h.1 b hb

theorem semiPassGo_head (f : Nat) (cs : List Char) :
    (semiPassGo f cs).head? = cs.head? := by
  induction f, cs using semiPassGo.induct with
  | case1 cs => rfl
  | case2 f => rfl
  | case3 f cs ih => rw [semiPassGo]; rfl
  | case4 f c cs hpat ih =>
    rw [semiPassGo]
    · rfl
    · exact hpat

theorem bracePassGo_head (f : Nat) (cs : List Char) :
    (bracePassGo f cs).head? = cs.head? := by
  induction f, cs using bracePassGo.induct with
  | case1 cs => rfl
  | case2 f => rfl
  | case3 f cs ih => rw [bracePassGo]; rfl
  | case4 f c cs hpat ih =>
    rw [bracePassGo]
    · rfl
    · exact hpat

theorem closeBracePassGo_head_ws (f : Nat) (cs : List Char) (h : Char)
    (hh : (closeBracePassGo f cs).head? = some h) (hw : wsChar h = true) :
    cs.head? = some h := by
  induction f, cs using closeBracePassGo.induct with
  | case1 cs => exact hh
  | case2 f => exact hh
  | case3 f c cs hws rest hdrop ih =>
    rw [closeBracePassGo, if_pos hws, hdrop] at hh
    have hh2 : some '}' = some h := hh
    rw [← Option.some_inj.mp hh2] at hw
    exact absurd hw (by decide)
  | case4 f c cs hws hdrop ih =>
    rw [closeBracePassGo, if_pos hws] at hh
    revert hh
    split
    · rename_i rest heq
      exact absurd heq (fun hx => hdrop rest hx)
    · intro hh
      exact hh
  | case5 f c cs hws ih =>
    rw [closeBracePassGo, if_neg hws] at hh
    exact hh

theorem gtLtPassGo_head_ws (f : Nat) (cs : List Char) (h : Char)
    (hh : (gtLtPassGo f cs).head? = some h) (hw : wsChar h = true) :
    cs.head? = some h := by
  induction f, cs using gtLtPassGo.induct with
  | case1 cs => exact hh
  | case2 f => exact hh
  | case3 f c cs hws rest hdrop ih =>
    rw [gtLtPassGo, if_pos hws, hdrop] at hh
    have hh2 : some '>' = some h := hh
    rw [← Option.some_inj.mp hh2] at hw
    exact absurd hw (by decide)
  | case4 f c cs hws hdrop ih =>
    rw [gtLtPassGo, if_pos hws] at hh
    revert hh
    split
    · rename_i rest heq
      exact absurd heq (fun hx => hdrop rest hx)
    · intro hh
      have hh2 : some '>' = some h := hh
      rw [← Option.some_inj.mp hh2] at hw
      exact absurd hw (by decide)
  | case5 f c cs hws ih =>
    rw [gtLtPassGo, if_neg hws] at hh
    have hh2 : some '>' = some h := hh
    rw [← Option.some_inj.mp hh2] at hw
    exact absurd hw (by decide)
  | case6 f c cs hpat ih =>
    rw [gtLtPassGo] at hh
    · exact hh
    · exact hpat

theorem wsOnlySpace_tail {a : Char} {l : List Char} (h : wsOnlySpace (a :: l)) :
    wsOnlySpace l :=
  fun c hc hw => h c (List.mem_cons_of_mem a hc) hw

theorem semiPassGo_norm (f : Nat) (cs : List Char) :
    noAdjWs cs → wsOnlySpace cs →
      noAdjWs (semiPassGo f cs) ∧ wsOnlySpace (semiPassGo f cs) := by
  induction f, cs using semiPassGo.induct with
  | case1 cs => exact fun h1 h2 => ⟨h1, h2⟩
  | case2 f => exact fun h1 h2 => ⟨h1, h2⟩
  | case3 f cs ih =>
    intro h1 h2
    have hsuf : cs.dropWhile wsChar <:+ cs := List.dropWhile_suffix _
    have ihd := ih (noAdjWs_suffix (noAdjWs_tail h1) hsuf)
      (wsOnlySpace_suffix (wsOnlySpace_tail h2) hsuf)
    rw [semiPassGo]
    refine ⟨noAdjWs_cons_left (by decide) ihd.1, ?_⟩
    intro c hc hw
    rcases List.mem_cons.mp hc with rfl | hc
    · exact absurd hw (by decide)
    · exact ihd.2 c hc hw
  | case4 f c cs hpat ih =>
    intro h1 h2
    have ihd := ih (noAdjWs_tail h1) (wsOnlySpace_tail h2)
    rw [semiPassGo]
    · refine ⟨noAdjWs_cons ?_ ihd.1, ?_⟩
      · intro b hb
        rw [semiPassGo_head] at hb
        exact noAdjWs_pair h1 b hb
      · intro x hx hw
        rcases List.mem_cons.mp hx with rfl | hx
        · exact h2 x (List.mem_cons_self _ _) hw
        · exact ihd.2 x hx hw
    · exact hpat

theorem bracePassGo_norm (f : Nat) (cs : List Char) :
    noAdjWs cs → wsOnlySpace cs →
      noAdjWs (bracePassGo f cs) ∧ wsOnlySpace (bracePassGo f cs) := by
  induction f, cs using bracePassGo.induct with
  | case1 cs => exact fun h1 h2 => ⟨h1, h2⟩
  | case2 f => exact fun h1 h2 => ⟨h1, h2⟩
  | case3 f cs ih =>
    intro h1 h2
    have hsuf : cs.dropWhile wsChar <:+ cs := List.dropWhile_suffix _
    have ihd := ih (noAdjWs_suffix (noAdjWs_tail h1) hsuf)
      (wsOnlySpace_suffix (wsOnlySpace_tail h2) hsuf)
    rw [bracePassGo]
    refine ⟨noAdjWs_cons_left (by decide) ihd.1, ?_⟩
    intro c hc hw
    rcases List.mem_cons.mp hc with rfl | hc
    · exact absurd hw (by decide)
    · exact ihd.2 c hc hw
  | case4 f c cs hpat ih =>
    intro h1 h2
    have ihd := ih (noAdjWs_tail h1) (wsOnlySpace_tail h2)
    rw [bracePassGo]
    · refine ⟨noAdjWs_cons ?_ ihd.1, ?_⟩
      · intro b hb
        rw [bracePassGo_head] at hb
        exact noAdjWs_pair h1 b hb
      · intro x hx hw
        rcases List.mem_cons.mp hx with rfl | hx
        · exact h2 x (List.mem_cons_self _ _) hw
        · exact ihd.2 x hx hw
    · exact hpat

theorem closeBracePassGo_norm (f : Nat) (cs : List Char) :
    noAdjWs cs → wsOnlySpace cs →
      noAdjWs (closeBracePassGo f cs) ∧ wsOnlySpace (closeBracePassGo f cs) := by
  induction f, cs using closeBracePassGo.induct with
  | case1 cs => exact fun h1 h2 => ⟨h1, h2⟩
  | case2 f => exact fun h1 h2 => ⟨h1, h2⟩
  | case3 f c cs hws rest hdrop ih =>
    intro h1 h2
    have hsuf : '}' :: rest <:+ cs := by
      rw [← hdrop]
      exact List.dropWhile_suffix _
    have hrest : rest <:+ cs := (List.suffix_cons '}' rest).trans hsuf
    have ihd := ih (noAdjWs_suffix (noAdjWs_tail h1) hrest)
      (wsOnlySpace_suffix (wsOnlySpace_tail h2) hrest)
    rw [closeBracePassGo, if_pos hws, hdrop]
    show noAdjWs ('}' :: closeBracePassGo f rest) ∧
      wsOnlySpace ('}' :: closeBracePassGo f rest)
    refine ⟨noAdjWs_cons_left (by decide) ihd.1, ?_⟩
    intro x hx hw
    rcases List.mem_cons.mp hx with rfl | hx
    · exact absurd hw (by decide)
    · exact ihd.2 x hx hw
  | case4 f c cs hws hdrop ih =>
    intro h1 h2
    have ihd := ih (noAdjWs_tail h1) (wsOnlySpace_tail h2)
    rw [closeBracePassGo, if_pos hws]
    have hred : (match cs.dropWhile wsChar with
        | '}' :: rest => '}' :: closeBracePassGo f rest
        | _ => c :: closeBracePassGo f cs) = c :: closeBracePassGo f cs := by
      split
      · rename_i rest heq
        exact absurd heq (fun hx => hdrop rest hx)
      · rfl
    rw [hred]
    refine ⟨noAdjWs_cons ?_ ihd.1, ?_⟩
    · intro b hb
      intro hab
      have hcb := closeBracePassGo_head_ws f cs b hb hab.2
      exact noAdjWs_pair h1 b hcb hab
    · intro x hx hw
      rcases List.mem_cons.mp hx with rfl | hx
      · exact h2 x (List.mem_cons_self _ _) hw
      · exact ihd.2 x hx hw
  | case5 f c cs hws ih =>
    intro h1 h2
    have ihd := ih (noAdjWs_tail h1) (wsOnlySpace_tail h2)
    rw [closeBracePassGo, if_neg hws]
    refine ⟨noAdjWs_cons_left (Bool.not_eq_true _ ▸ eq_false_of_ne_true hws) ihd.1, ?_⟩
    intro x hx hw
    rcases List.mem_cons.mp hx with rfl | hx
    · exact h2 x (List.mem_cons_self _ _) hw
    · exact ihd.2 x hx hw

theorem gtLtPassGo_norm (f : Nat) (cs : List Char) :
    noAdjWs cs → wsOnlySpace cs →
      noAdjWs (gtLtPassGo f cs) ∧ wsOnlySpace (gtLtPassGo f cs) := by
  induction f, cs using gtLtPassGo.induct with
  | case1 cs => exact fun h1 h2 => ⟨h1, h2⟩
  | case2 f => exact fun h1 h2 => ⟨h1, h2⟩
  | case3 f c cs hws rest hdrop ih =>
    intro h1 h2
    have hsuf : '<' :: rest <:+ cs := by
      rw [← hdrop]
      exact List.dropWhile_suffix _
    have hrest : rest <:+ cs := (List.suffix_cons '<' rest).trans hsuf
    have ihd := ih (noAdjWs_suffix (noAdjWs_tail (noAdjWs_tail h1)) hrest)
      (wsOnlySpace_suffix (wsOnlySpace_tail (wsOnlySpace_tail h2)) hrest)
    rw [gtLtPassGo, if_pos hws, hdrop]
    show noAdjWs ('>' :: '<' :: gtLtPassGo f rest) ∧
      wsOnlySpace ('>' :: '<' :: gtLtPassGo f rest)
    refine ⟨noAdjWs_cons_left (by decide) (noAdjWs_cons_left (by decide) ihd.1), ?_⟩
    intro x hx hw
    rcases List.mem_cons.mp hx with rfl | hx
    · exact absurd hw (by decide)
    rcases List.mem_cons.mp hx with rfl | hx
    · exact absurd hw (by decide)
    · exact ihd.2 x hx hw
  | case4 f c cs hws hdrop ih =>
    intro h1 h2
    have ihd := ih (noAdjWs_tail h1) (wsOnlySpace_tail h2)
    rw [gtLtPassGo, if_pos hws]
    have hred : (match cs.dropWhile wsChar with
        | '<' :: rest => '>' :: '<' :: gtLtPassGo f rest
        | _ => '>' :: gtLtPassGo f (c :: cs)) = '>' :: gtLtPassGo f (c :: cs) := by
      split
      · rename_i rest heq
        exact absurd heq (fun hx => hdrop rest hx)
      · rfl
    rw [hred]
    refine ⟨noAdjWs_cons_left (by decide) ihd.1, ?_⟩
    intro x hx hw
    rcases List.mem_cons.mp hx with rfl | hx
    · exact absurd hw (by decide)
    · exact ihd.2 x hx hw
  | case5 f c cs hws ih =>
    intro h1 h2
    have ihd := ih (noAdjWs_tail h1) (wsOnlySpace_tail h2)
    rw [gtLtPassGo, if_neg hws]
    refine ⟨noAdjWs_cons_left (by decide) ihd.1, ?_⟩
    intro x hx hw
    rcases List.mem_cons.mp hx with rfl | hx
    · exact absurd hw (by decide)
    · exact ihd.2 x hx hw
  | case6 f c cs hpat ih =>
    intro h1 h2
    have ihd := ih (noAdjWs_tail h1) (wsOnlySpace_tail h2)
    rw [gtLtPassGo]
    · refine ⟨noAdjWs_cons ?_ ihd.1, ?_⟩
      · intro b hb
        intro hab
        have hcb := gtLtPassGo_head_ws f cs b hb hab.2
        exact noAdjWs_pair h1 b hcb hab
      · intro x hx hw
        rcases List.mem_cons.mp hx with rfl | hx
        · exact h2 x (List.mem_cons_self _ _) hw
        · exact ihd.2 x hx hw
    · exact hpat

theorem collapseWsGo_head_not_ws (f : Nat) (d : List Char)
    (hd : ∀ b, d.head? = some b → wsChar b = false) :
    ∀ b, (collapseWsGo f d).head? = some b → wsChar b = false := by
  cases f with
  | zero => exact hd
  | succ f =>
    cases d with
    | nil => intro b hb; exact absurd hb (by simp [collapseWsGo])
    | cons h t =>
      have hh : wsChar h = false := hd h rfl
      rw [collapseWsGo, if_neg (by simp [hh])]
      intro b hb
      have : h = b := Option.some_inj.mp hb
      rw [← this]
      exact hh

theorem collapseWsGo_norm (f : Nat) (cs : List Char) :
    cs.length ≤ f →
      noAdjWs (collapseWsGo f cs) ∧ wsOnlySpace (collapseWsGo f cs) := by
  induction f, cs using collapseWsGo.induct with
  | case1 cs =>
    intro hf
    have hcs : cs = [] := List.length_eq_zero.mp (Nat.le_zero.mp hf)
    rw [hcs]
    refine ⟨?_, ?_⟩
    · show noAdjWs ([] : List Char)
      exact List.chain'_nil
    · show wsOnlySpace ([] : List Char)
      intro c hc
      simp at hc
  | case2 f =>
    refine fun _ => ⟨?_, ?_⟩
    · show noAdjWs ([] : List Char)
      exact List.chain'_nil
    · show wsOnlySpace ([] : List Char)
      intro c hc
      simp at hc
  | case3 f c cs hws ih =>
    intro hf
    have hlen : (cs.dropWhile wsChar).length ≤ f := by
      have h1 : (cs.dropWhile wsChar).length ≤ cs.length :=
        (List.dropWhile_suffix wsChar).length_le
      have h2 : cs.length ≤ f := by
        simpa using Nat.le_of_succ_le_succ (by simpa using hf)
      omega
    have ihd := ih hlen
    rw [collapseWsGo, if_pos hws]
    have hhead : ∀ b, (collapseWsGo f (cs.dropWhile wsChar)).head? = some b →
        wsChar b = false :=
      collapseWsGo_head_not_ws f _ (fun b hb => dropWhile_head_not wsChar cs b hb)
    refine ⟨noAdjWs_cons (fun b hb hab => by rw [hhead b hb] at hab; exact absurd hab.2 (by simp)) ihd.1, ?_⟩
    intro x hx hw
    rcases List.mem_cons.mp hx with rfl | hx
    · rfl
    · exact ihd.2 x hx hw
  | case4 f c cs hws ih =>
    intro hf
    have hlen : cs.length ≤ f := by
      simpa using Nat.le_of_succ_le_succ (by simpa using hf)
    have ihd := ih hlen
    rw [collapseWsGo, if_neg hws]
    refine ⟨noAdjWs_cons_left (eq_false_of_ne_true hws) ihd.1, ?_⟩
    intro x hx hw
    rcases List.mem_cons.mp hx with rfl | hx
    · exact absurd hw (by simp [eq_false_of_ne_true hws])
    · exact ihd.2 x hx hw

theorem noAdjWs_reverse {l : List Char} (h : noAdjWs l) : noAdjWs l.reverse := by
  unfold noAdjWs at h ⊢
  rw [List.chain'_reverse]
  exact h.imp fun a b hab => fun hx => hab ⟨hx.2, hx.1⟩

theorem wsOnlySpace_reverse {l : List Char} (h : wsOnlySpace l) : wsOnlySpace l.reverse :=
  fun c hc hw => h c (List.mem_reverse.mp hc) hw

theorem suffix_getLast? {d n : List Char} (hs : d <:+ n) (hd : d ≠ []) :
    d.getLast? = n.getLast? := by
  obtain ⟨t, rfl⟩ := hs
  exact (List.getLast?_append_of_ne_nil t hd).symm

theorem jsTrim_norm (l : List Char) (h1 : noAdjWs l) (h2 : wsOnlySpace l) :
    noAdjWs (jsTrim l) ∧ wsOnlySpace (jsTrim l) ∧
    (∀ c, (jsTrim l).head? = some c → wsChar c = false) ∧
    (∀ c, (jsTrim l).getLast? = some c → wsChar c = false) := by
  have hd1 : noAdjWs (l.dropWhile wsChar) := noAdjWs_suffix h1 (List.dropWhile_suffix _)
  have hs1 : wsOnlySpace (l.dropWhile wsChar) :=
    wsOnlySpace_suffix h2 (List.dropWhile_suffix _)
  have hd2 : noAdjWs ((l.dropWhile wsChar).reverse.dropWhile wsChar) :=
    noAdjWs_suffix (noAdjWs_reverse hd1) (List.dropWhile_suffix _)
  have hs2 : wsOnlySpace ((l.dropWhile wsChar).reverse.dropWhile wsChar) :=
    wsOnlySpace_suffix (wsOnlySpace_reverse hs1) (List.dropWhile_suffix _)
  refine ⟨noAdjWs_reverse hd2, wsOnlySpace_reverse hs2, ?_, ?_⟩
  · intro c hc
    rw [jsTrim, List.head?_reverse] at hc
    by_cases hnil : (l.dropWhile wsChar).reverse.dropWhile wsChar = []
    · rw [hnil] at hc
      exact absurd hc (by simp)
    · rw [suffix_getLast? (List.dropWhile_suffix _) hnil, List.getLast?_reverse] at hc
      exact dropWhile_head_not wsChar l c hc
  · intro c hc
    rw [jsTrim, List.getLast?_reverse] at hc
    exact dropWhile_head_not wsChar _ c hc

/-- C9: for every input and every non-JSON kind, the minified text has no
newline or tab, no two adjacent whitespace characters anywhere (string literals
and attribute values included, since the collapse is applied to the whole
text), and no leading or trailing whitespace. -/
theorem c9_global_ws_collapse (content : List Char) (t : FileType) (m : List Char)
    (hk : t = .html ∨ t = .css ∨ t = .js ∨ t = .jsx)
    (hm : mockMinify content t = some m) :
    ('\n' ∉ m ∧ '\t' ∉ m) ∧ noAdjWs m ∧
    (∀ c, m.head? = some c → wsChar c = false) ∧
    (∀ c, m.getLast? = some c → wsChar c = false) := by
  have final : ∀ Y : List Char, noAdjWs Y → wsOnlySpace Y →
      ('\n' ∉ jsTrim Y ∧ '\t' ∉ jsTrim Y) ∧ noAdjWs (jsTrim Y) ∧
      (∀ c, (jsTrim Y).head? = some c → wsChar c = false) ∧
      (∀ c, (jsTrim Y).getLast? = some c → wsChar c = false) := by
    intro Y hY1 hY2
    obtain ⟨j1, j2, j3, j4⟩ := jsTrim_norm Y hY1 hY2
    refine ⟨⟨?_, ?_⟩, j1, j3, j4⟩
    · intro hmem
      exact absurd (j2 _ hmem (by decide)) (by decide)
    · intro hmem
      exact absurd (j2 _ hmem (by decide)) (by decide)
  have base : ∀ X : List Char, noAdjWs (collapseWs X) ∧ wsOnlySpace (collapseWs X) :=
    fun X => collapseWsGo_norm X.length X (Nat.le_refl _)
  have cssJsChain : ∀ X : List Char,
      noAdjWs (closeBracePass (bracePass (semiPass (collapseWs X)))) ∧
      wsOnlySpace (closeBracePass (bracePass (semiPass (collapseWs X)))) := by
    intro X
    obtain ⟨b1, b2⟩ := base X
    obtain ⟨s1, s2⟩ := semiPassGo_norm _ _ b1 b2
    obtain ⟨p1, p2⟩ := bracePassGo_norm _ _ s1 s2
    exact closeBracePassGo_norm _ _ p1 p2
  rcases hk with rfl | rfl | rfl | rfl
  · rw [mockMinify] at hm
    rw [← Option.some_inj.mp hm]
    obtain ⟨b1, b2⟩ := base (remHtmlComments content)
    obtain ⟨g1, g2⟩ := gtLtPassGo_norm _ _ b1 b2
    exact final _ g1 g2
  · rw [mockMinify] at hm
    rw [← Option.some_inj.mp hm]
    obtain ⟨k1, k2⟩ := cssJsChain (remBlockComments content)
    exact final _ k1 k2
  · rw [mockMinify] at hm
    rw [← Option.some_inj.mp hm]
    obtain ⟨k1, k2⟩ := cssJsChain (remBlockComments (remLineComments content))
    exact final _ k1 k2
  · rw [mockMinify] at hm
    rw [← Option.some_inj.mp hm]
    obtain ⟨k1, k2⟩ := cssJsChain (remBlockComments (remLineComments content))
    exact final _ k1 k2

/-- C9 witness. -/
theorem c9_global_ws_collapse_witness :
    ('\n' ∉ "var x".data ∧ '\t' ∉ "var x".data) ∧ noAdjWs "var x".data ∧
    (∀ c, "var x".data.head? = some c → wsChar c = false) ∧
    (∀ c, "var x".data.getLast? = some c → wsChar c = false) :=
  c9_global_ws_collapse "  var x  ".data .js "var x".data
    (Or.inr (Or.inr (Or.inl rfl))) (by rfl)

/-! ## C2: the JSON round trip and its overflow failure -/

set_option exponentiation.threshold 5000 in
set_option maxRecDepth 16000 in
/-- C2: the spec's round trip `parse (minify x) = parse x` fails in the code.
The grammatically valid input `1e999` is judged valid — the host `JSON.parse`
returns it as the double `Infinity`, throwing nothing — but `JSON.stringify`
writes a non-finite number as `null`, so the minified output is the text
`null`, which re-parses to the value `null`, not to the original value
(`null` is no number at all).  The spec's concrete fixture conjunct does hold:
the example object is valid and minifies to its whitespace-free form. -/
theorem c2_roundtrip_broken_by_overflow :
    validateContent "1e999".data .json = ⟨true, none⟩ ∧
    jsonParse "1e999".data = some (Json.num .posInf) ∧
    mockMinify "1e999".data .json = some "null".data ∧
    jsonParse "null".data = some Json.null ∧
    (∀ jn : JNum, Json.null ≠ Json.num jn) ∧
    validateContent "\x7b\"a\": 1, \"b\": [1,2,3]\x7d".data .json = ⟨true, none⟩ ∧
    mockMinify "\x7b\"a\": 1, \"b\": [1,2,3]\x7d".data .json =
      some "\x7b\"a\":1,\"b\":[1,2,3]\x7d".data := by
  refine ⟨rfl, rfl, rfl, rfl, fun jn h => Json.noConfusion h, rfl, rfl⟩
